import Mathlib

/-!
Verification of `ancomP/stats/permutation.py`.

The module is embedded shallowly:

* numpy arrays of numbers become functions `ℕ → ℚ` (or `ℕ → ℕ → ℚ` for
  matrices) together with explicit dimensions; the numeric dtype is fixed to
  exact rationals, corresponding to running the pipeline on floating-point
  arrays without rounding.
* the category label vector becomes `List ℤ`;
* `np.random.shuffle` is an in-place update of the working copy of the label
  vector; it is modelled by an arbitrary parameter
  `shuffle : ℕ → List ℤ → List ℤ` giving, for each call index, the list the
  working copy is replaced by.  Theorems that depend on shuffling being a
  permutation take the hypothesis `∀ m l, shuffle m l ~ l`.
* the heap behaviour of the builders (which `copy.deepcopy` the caller's
  vector and then shuffle only the copy in place) is modelled separately by a
  reference heap, see `Heap` below.
-/

namespace AncomP

/-- Number of distinct category values, `len(np.unique(cats))`. -/
def numCats (cats : List ℤ) : ℕ := cats.dedup.length

/-- State of the shuffled working copy of the label vector:
`workingCopy shuffle cats m` is `copy_cats` after `m` calls of
`np.random.shuffle`.  Block `m` of a permutation matrix is written from this
state (the source writes block `m` and then shuffles). -/
def workingCopy (shuffle : ℕ → List ℤ → List ℤ) (cats : List ℤ) : ℕ → List ℤ
  | 0 => cats
  | m + 1 => shuffle m (workingCopy shuffle cats m)

/-- A permutation-encoding matrix with explicit dimensions. -/
structure PermMatrix where
  rows : ℕ
  cols : ℕ
  entry : ℕ → ℕ → ℚ

/-- `_init_categorical_perms(cats, permutations)`: for block `m` and category
`i < num_cats`, column `num_cats*m + i` is the 0/1 indicator
`(copy_cats == i)` of the working copy after `m` shuffles. -/
def init_categorical_perms (shuffle : ℕ → List ℤ → List ℤ) (cats : List ℤ)
    (permutations : ℕ) : PermMatrix where
  rows := cats.length
  cols := numCats cats * (permutations + 1)
  entry := fun s col =>
    if (workingCopy shuffle cats (col / numCats cats)).get? s
        = some ((col % numCats cats : ℕ) : ℤ) then 1 else 0

/-- `_init_reciprocal_perms(cats, permutations)`: for block `m`, column `2*m`
holds `copy_cats / copy_cats.sum()` and column `2*m+1` holds
`(ones - copy_cats) / (ones - copy_cats).sum()`, the working copy being the
one after `m` shuffles.  (numpy allocates the output with the dtype of
`cats`; the rational quotients here correspond to a floating-point labels
array.)  This total function models the builder on its documented domain,
binary label vectors (`num_cats = 2`), where the columns written —
`2*m` and `2*m+1` for `m ≤ P` — are exactly the `num_cats*(permutations+1)`
allocated ones.  Outside that domain the source behaves differently: for
`num_cats ≤ 1` the column assignments go out of bounds and the call dies
with a numpy `IndexError` (see `recipWritesInBounds`), and for
`num_cats ≥ 3` the trailing padding columns stay zero. -/
def init_reciprocal_perms (shuffle : ℕ → List ℤ → List ℤ) (cats : List ℤ)
    (permutations : ℕ) : PermMatrix where
  rows := cats.length
  cols := numCats cats * (permutations + 1)
  entry := fun s col =>
    let copyCats := workingCopy shuffle cats (col / 2)
    if col % 2 = 0 then
      ((copyCats.getD s 0 : ℤ) : ℚ) / ((copyCats.sum : ℤ) : ℚ)
    else
      (1 - ((copyCats.getD s 0 : ℤ) : ℚ))
        / (((copyCats.map fun x => 1 - x).sum : ℤ) : ℚ)

/-- The write pattern of `_init_reciprocal_perms`: the loop assigns columns
`2*m` and `2*m+1` for every `m ≤ permutations` into the
`num_cats*(permutations+1)`-column allocation, so every assignment is in
bounds iff the largest index `2*permutations + 1` is; when it is not, the
source call raises a numpy `IndexError` at the first out-of-bounds
assignment instead of returning a matrix. -/
def recipWritesInBounds (cats : List ℤ) (permutations : ℕ) : Prop :=
  2 * permutations + 1 < numCats cats * (permutations + 1)

instance (cats : List ℤ) (permutations : ℕ) :
    Decidable (recipWritesInBounds cats permutations) :=
  Nat.decLt _ _

/-- Result of a statistic engine: per-feature observed statistic (block 0)
and per-feature p-value. -/
structure TestResult where
  stat : ℕ → ℚ
  pvalue : ℕ → ℚ

/-- Matrix product `mat * perms` with inner dimension `n` (the number of
samples). -/
def matProd (mat : ℕ → ℕ → ℚ) (n : ℕ) (perms : ℕ → ℕ → ℚ) (r c : ℕ) : ℚ :=
  ∑ s in Finset.range n, mat r s * perms s c

/-- The shared tail-probability computation
`(cmps.sum(axis=1) + 1.) / (permutations + 1.)` where
`cmps = stat[:, 1:] >= stat[:, 0]`; identical lines appear in all three
statistic engines. -/
def tailPValue (stats : ℕ → ℚ) (P : ℕ) : ℚ :=
  ((((Finset.range P).filter fun i => stats (i + 1) ≥ stats 0).card : ℚ) + 1)
    / ((P : ℚ) + 1)

/-- `avgs = mat * perms` of `_np_two_sample_mean_statistic`. -/
def meanAvgs (mat : ℕ → ℕ → ℚ) (n : ℕ) (perms : ℕ → ℕ → ℚ) : ℕ → ℕ → ℚ :=
  matProd mat n perms

/-- `mean_stat = abs(avgs[:, idx+1] - avgs[:, idx])` with
`idx = arange(0, (permutations+1)*2, 2)`: the per-block mean statistic. -/
def meanStatF (mat : ℕ → ℕ → ℚ) (n : ℕ) (perms : ℕ → ℕ → ℚ) (r m : ℕ) : ℚ :=
  |meanAvgs mat n perms r (2 * m + 1) - meanAvgs mat n perms r (2 * m)|

/-- `_np_two_sample_mean_statistic(mat, perms)`; `n` is the number of rows of
`perms` (samples), `c` its number of columns, from which the engine derives
`permutations = (c - 2) // 2`. -/
def np_two_sample_mean_statistic (mat : ℕ → ℕ → ℚ) (n : ℕ)
    (perms : ℕ → ℕ → ℚ) (c : ℕ) : TestResult where
  stat := fun r => meanStatF mat n perms r 0
  pvalue := fun r => tailPValue (meanStatF mat n perms r) ((c - 2) / 2)

/-- `_np_mean_permutation_test(mat, cats, permutations)`: builds the
reciprocal permutation matrix and feeds it to the mean engine. -/
def np_mean_permutation_test (shuffle : ℕ → List ℤ → List ℤ)
    (mat : ℕ → ℕ → ℚ) (cats : List ℤ) (permutations : ℕ) : TestResult :=
  let perms := init_reciprocal_perms shuffle cats permutations
  np_two_sample_mean_statistic mat perms.rows perms.entry perms.cols

/-- `tot = perms.sum(axis=0)`: per-column sums of the permutation matrix
(the per-block per-category group sizes); computed identically in the t and
F engines. -/
def colTot (n : ℕ) (perms : ℕ → ℕ → ℚ) (col : ℕ) : ℚ :=
  ∑ s in Finset.range n, perms s col

/-- `_avgs = _sums / tot` of `_np_two_sample_t_statistic`. -/
def tAvgs (mat : ℕ → ℕ → ℚ) (n : ℕ) (perms : ℕ → ℕ → ℚ) (r col : ℕ) : ℚ :=
  matProd mat n perms r col / colTot n perms col

/-- `_avgs2 = _sums2 / tot` where `_sums2 = multiply(mat, mat) * perms`. -/
def tAvgs2 (mat : ℕ → ℕ → ℚ) (n : ℕ) (perms : ℕ → ℕ → ℚ) (r col : ℕ) : ℚ :=
  matProd (fun r s => mat r s * mat r s) n perms r col / colTot n perms col

/-- `_vars = _avgs2 - multiply(_avgs, _avgs)`. -/
def tVars (mat : ℕ → ℕ → ℚ) (n : ℕ) (perms : ℕ → ℕ → ℚ) (r col : ℕ) : ℚ :=
  tAvgs2 mat n perms r col - tAvgs mat n perms r col * tAvgs mat n perms r col

/-- `_samp_vars = multiply(tot, _vars) / (tot - 1)`. -/
def tSampVars (mat : ℕ → ℕ → ℚ) (n : ℕ) (perms : ℕ → ℕ → ℚ) (r col : ℕ) : ℚ :=
  colTot n perms col * tVars mat n perms r col / (colTot n perms col - 1)

/-- Argument of `np.sqrt` in the Welch denominator
`denom = sqrt(_samp_vars[:, idx+1]/tot[:, idx+1] + _samp_vars[:, idx]/tot[:, idx])`
at feature `r`, block `m`. -/
def tDenomArg (mat : ℕ → ℕ → ℚ) (n : ℕ) (perms : ℕ → ℕ → ℚ) (r m : ℕ) : ℚ :=
  tSampVars mat n perms r (2 * m + 1) / colTot n perms (2 * m + 1)
    + tSampVars mat n perms r (2 * m) / colTot n perms (2 * m)

/-- Per-block Welch t statistic
`t_stat = divide(abs(_avgs[:, idx+1] - _avgs[:, idx]), denom)`.  `np.sqrt` is
modelled by the parameter `sqrtFn` (none of the verified claims depends on
its values beyond those fixed by hypotheses). -/
def tStatF (sqrtFn : ℚ → ℚ) (mat : ℕ → ℕ → ℚ) (n : ℕ) (perms : ℕ → ℕ → ℚ)
    (r m : ℕ) : ℚ :=
  |tAvgs mat n perms r (2 * m + 1) - tAvgs mat n perms r (2 * m)|
    / sqrtFn (tDenomArg mat n perms r m)

/-- `_np_two_sample_t_statistic(mat, perms)`; `n` is the number of rows of
`perms`, `c` its number of columns, `permutations = (c - 2) // 2`. -/
def np_two_sample_t_statistic (sqrtFn : ℚ → ℚ) (mat : ℕ → ℕ → ℚ) (n : ℕ)
    (perms : ℕ → ℕ → ℚ) (c : ℕ) : TestResult where
  stat := fun r => tStatF sqrtFn mat n perms r 0
  pvalue := fun r => tailPValue (tStatF sqrtFn mat n perms r) ((c - 2) / 2)

/-- `_np_t_permutation_test(mat, cats, permutations)`: builds the indicator
permutation matrix and feeds it to the t engine. -/
def np_t_permutation_test (sqrtFn : ℚ → ℚ) (shuffle : ℕ → List ℤ → List ℤ)
    (mat : ℕ → ℕ → ℚ) (cats : List ℤ) (permutations : ℕ) : TestResult :=
  let perms := init_categorical_perms shuffle cats permutations
  np_two_sample_t_statistic sqrtFn mat perms.rows perms.entry perms.cols

/-- `S = mat.sum(axis=1)` of `_np_k_sample_f_statistic`: per-feature total. -/
def fS (mat : ℕ → ℕ → ℚ) (n : ℕ) (r : ℕ) : ℚ := ∑ s in Finset.range n, mat r s

/-- `SS = mat2.sum(axis=1)` with `mat2 = multiply(mat, mat)`. -/
def fSS (mat : ℕ → ℕ → ℚ) (n : ℕ) (r : ℕ) : ℚ :=
  ∑ s in Finset.range n, mat r s * mat r s

/-- `sstot = SS - multiply(S, S) / float(n_samp)`: total sum of squares. -/
def fSstot (mat : ℕ → ℕ → ℚ) (n : ℕ) (r : ℕ) : ℚ :=
  fSS mat n r - fS mat n r * fS mat n r / (n : ℚ)

/-- `_sum_idx = _init_categorical_perms(arange((permutations+1)*num_cats) // num_cats, 0)`:
the block-summation matrix mapping the `K` per-category columns of each block
to that block's output column. -/
def fSumIdx (K P : ℕ) : PermMatrix :=
  init_categorical_perms (fun _ l => l)
    ((List.range ((P + 1) * K)).map fun j => ((j / K : ℕ) : ℤ)) 0

/-- `ss = _sums2 - multiply(_sums, _sums) / tot`: per-category
sums of squares, per block. -/
def fSs (mat : ℕ → ℕ → ℚ) (n : ℕ) (perms : ℕ → ℕ → ℚ) (r col : ℕ) : ℚ :=
  matProd (fun r s => mat r s * mat r s) n perms r col
    - matProd mat n perms r col * matProd mat n perms r col / colTot n perms col

/-- `sserr = np.dot(ss, _sum_idx)`: within-group sum of squares per block. -/
def fSserr (mat : ℕ → ℕ → ℚ) (n : ℕ) (K P : ℕ) (perms : ℕ → ℕ → ℚ)
    (r m : ℕ) : ℚ :=
  ∑ col in Finset.range ((P + 1) * K),
    fSs mat n perms r col * (fSumIdx K P).entry col m

/-- `dferr = np.dot(tot, _sum_idx) - num_cats`: per-block error degrees of
freedom. -/
def fDferr (n : ℕ) (K P : ℕ) (perms : ℕ → ℕ → ℚ) (m : ℕ) : ℚ :=
  (∑ col in Finset.range ((P + 1) * K),
    colTot n perms col * (fSumIdx K P).entry col m) - (K : ℚ)

/-- Per-block F statistic `f_stat = (sstrt / dftrt) / (sserr / dferr)` with
`sstrt = sstot - sserr` and `dftrt = num_cats - 1`. -/
def fStatF (mat : ℕ → ℕ → ℚ) (n : ℕ) (K P : ℕ) (perms : ℕ → ℕ → ℚ)
    (r m : ℕ) : ℚ :=
  ((fSstot mat n r - fSserr mat n K P perms r m) / ((K : ℚ) - 1))
    / (fSserr mat n K P perms r m / fDferr n K P perms m)

/-- `_np_k_sample_f_statistic(mat, cats, perms)`; `n` is the number of rows
of `perms` (`n_samp`), `c` its number of columns; the engine derives
`num_cats` from `cats` and `permutations = (c - num_cats) / num_cats`. -/
def np_k_sample_f_statistic (mat : ℕ → ℕ → ℚ) (n : ℕ) (cats : List ℤ)
    (perms : ℕ → ℕ → ℚ) (c : ℕ) : TestResult where
  stat := fun r =>
    fStatF mat n (numCats cats) ((c - numCats cats) / numCats cats) perms r 0
  pvalue := fun r =>
    tailPValue
      (fStatF mat n (numCats cats) ((c - numCats cats) / numCats cats) perms r)
      ((c - numCats cats) / numCats cats)

/-- Direct (spec-side) group mean of feature row `r` over the samples whose
true label is `k`: used to state that the vectorized engine agrees with the
statistic computed from the true labels. -/
def specGroupMean (mat : ℕ → ℕ → ℚ) (cats : List ℤ) (r : ℕ) (k : ℤ) : ℚ :=
  (∑ s in Finset.range cats.length, if cats.get? s = some k then mat r s else 0)
    / (cats.count k : ℚ)

/-- Spec-side: the list of values of `xs` falling in category `k`. -/
def specGroup (xs : List ℚ) (cats : List ℤ) (k : ℤ) : List ℚ :=
  (List.range cats.length).filterMap fun s =>
    if cats.get? s = some k then xs.get? s else none

/-- Spec-side within-group sum of squares: `Σ_k (Σ_k x² - (Σ_k x)²/n_k)`. -/
def specSserr (xs : List ℚ) (cats : List ℤ) : ℚ :=
  ∑ k in Finset.range (numCats cats),
    (((specGroup xs cats (k : ℤ)).map fun x => x * x).sum
      - (specGroup xs cats (k : ℤ)).sum * (specGroup xs cats (k : ℤ)).sum
          / ((specGroup xs cats (k : ℤ)).length : ℚ))

/-- Spec-side standard one-way ANOVA F statistic, following the reference
formula quoted by the spec: `sstot = Σx² - (Σx)²/n` over all samples,
`sserr` the within-group sum of squares, `sstrt = sstot - sserr`, and
`F = (sstrt/(K-1)) / (sserr/(n-K))`. -/
def specAnovaF (xs : List ℚ) (cats : List ℤ) : ℚ :=
  ((((xs.map fun x => x * x).sum - xs.sum * xs.sum / (xs.length : ℚ))
      - specSserr xs cats) / ((numCats cats : ℚ) - 1))
    / (specSserr xs cats / ((xs.length : ℚ) - (numCats cats : ℚ)))

/-- Lift a list-of-rows literal to a total matrix function. -/
def matOfLists (L : List (List ℚ)) : ℕ → ℕ → ℚ :=
  fun r s => (L.getD r []).getD s 0

/-- The identity shuffle (used to instantiate theorems at concrete inputs;
any function is a legal instantiation of the `shuffle` parameter). -/
def idShuffle : ℕ → List ℤ → List ℤ := fun _ l => l

/-- Concrete labels `[0,0,0,1,1,1]` of the spec scenarios. -/
def cats6 : List ℤ := [0, 0, 0, 1, 1, 1]

/-- Concrete feature matrix `[[1,1,1,2,2,2]]` of the spec scenarios. -/
def mat6 : ℕ → ℕ → ℚ := matOfLists [[1, 1, 1, 2, 2, 2]]

/-- Concrete feature row `[1,2,3,10,11,9]` of the F-test scenario. -/
def xsF : List ℚ := [1, 2, 3, 10, 11, 9]

/-- Concrete feature matrix for the F-test scenario. -/
def matF : ℕ → ℕ → ℚ := matOfLists [xsF]

/-- A heap of integer-array objects addressed by references, used to model
the Python-level aliasing behaviour of the builders: `copy.deepcopy`
allocates a fresh object and `np.random.shuffle` writes one object in
place. -/
structure Heap where
  arrays : ℕ → List ℤ
  nextRef : ℕ

/-- In-place update of the object at reference `r`. -/
def Heap.write (h : Heap) (r : ℕ) (v : List ℤ) : Heap :=
  ⟨fun q => if q = r then v else h.arrays q, h.nextRef⟩

/-- Allocation of a fresh object holding `v` (`copy.deepcopy`). -/
def Heap.alloc (h : Heap) (v : List ℤ) : ℕ × Heap :=
  (h.nextRef, ⟨fun q => if q = h.nextRef then v else h.arrays q, h.nextRef + 1⟩)

/-- The builder loop `for m in range(t): read copy_cats; shuffle copy_cats`:
returns the final heap together with the list of the `t` snapshots of the
working copy that the blocks were written from. -/
def shuffleLoop (shuffle : ℕ → List ℤ → List ℤ) (ref : ℕ) :
    ℕ → Heap → Heap × List (List ℤ)
  | 0, h => (h, [])
  | t + 1, h =>
    let p := shuffleLoop shuffle ref t h
    let snap := p.1.arrays ref
    (p.1.write ref (shuffle t snap), p.2 ++ [snap])

/-- Heap-level `_init_categorical_perms`: deep-copies the caller's label
vector, runs the shuffle loop on the copy, and assembles the indicator
matrix from the per-block snapshots of the copy. -/
def init_categorical_perms_prog (shuffle : ℕ → List ℤ → List ℤ) (h : Heap)
    (catsRef : ℕ) (permutations : ℕ) : Heap × PermMatrix :=
  let cats := h.arrays catsRef
  let al := h.alloc cats
  let res := shuffleLoop shuffle al.1 (permutations + 1) al.2
  (res.1,
    ⟨cats.length, numCats cats * (permutations + 1), fun s col =>
      if (res.2.getD (col / numCats cats) []).get? s
          = some ((col % numCats cats : ℕ) : ℤ) then 1 else 0⟩)

/-- Heap-level `_init_reciprocal_perms`: same loop structure, reciprocal
encoding. -/
def init_reciprocal_perms_prog (shuffle : ℕ → List ℤ → List ℤ) (h : Heap)
    (catsRef : ℕ) (permutations : ℕ) : Heap × PermMatrix :=
  let cats := h.arrays catsRef
  let al := h.alloc cats
  let res := shuffleLoop shuffle al.1 (permutations + 1) al.2
  (res.1,
    ⟨cats.length, numCats cats * (permutations + 1), fun s col =>
      let copyCats := res.2.getD (col / 2) []
      if col % 2 = 0 then
        ((copyCats.getD s 0 : ℤ) : ℚ) / ((copyCats.sum : ℤ) : ℚ)
      else
        (1 - ((copyCats.getD s 0 : ℤ) : ℚ))
          / (((copyCats.map fun x => 1 - x).sum : ℤ) : ℚ)⟩)

/-- Heap-level `_np_mean_permutation_test`: the feature matrices live in
their own read-only store `mats` (none of the numpy operations of the engine
writes in place: `np.matrix`, `mat * perms`, `abs`, comparisons and the
p-value arithmetic all allocate new arrays), the label vectors in `h`. -/
def np_mean_permutation_test_prog (shuffle : ℕ → List ℤ → List ℤ) (h : Heap)
    (mats : ℕ → ℕ → ℕ → ℚ) (matRef catsRef : ℕ) (permutations : ℕ) :
    (Heap × (ℕ → ℕ → ℕ → ℚ)) × TestResult :=
  let b := init_reciprocal_perms_prog shuffle h catsRef permutations
  ((b.1, mats),
    np_two_sample_mean_statistic (mats matRef) b.2.rows b.2.entry b.2.cols)

/-! ### Helper lemmas -/

theorem tailPValue_pos (stats : ℕ → ℚ) (P : ℕ) : 0 < tailPValue stats P := by
  unfold tailPValue
  positivity

theorem tailPValue_le_one (stats : ℕ → ℚ) (P : ℕ) : tailPValue stats P ≤ 1 := by
  unfold tailPValue
  rw [div_le_one (by positivity)]
  have hcard : (((Finset.range P).filter fun i => stats (i + 1) ≥ stats 0).card : ℚ)
      ≤ (P : ℚ) := by
    have := Finset.card_filter_le (Finset.range P) fun i => stats (i + 1) ≥ stats 0
    rw [Finset.card_range] at this
    exact_mod_cast this
  linarith

theorem tailPValue_of_all_lt (stats : ℕ → ℚ) (P : ℕ)
    (h : ∀ i < P, stats (i + 1) < stats 0) :
    tailPValue stats P = 1 / ((P : ℚ) + 1) := by
  unfold tailPValue
  have hfilter : ((Finset.range P).filter fun i => stats (i + 1) ≥ stats 0) = ∅ := by
    apply Finset.filter_false_of_mem
    intro i hi
    exact not_le.mpr (h i (Finset.mem_range.mp hi))
  rw [hfilter]
  simp

theorem tailPValue_zero (stats : ℕ → ℚ) : tailPValue stats 0 = 1 := by
  unfold tailPValue
  simp

theorem workingCopy_perm (shuffle : ℕ → List ℤ → List ℤ)
    (hs : ∀ m l, (shuffle m l).Perm l) (cats : List ℤ) :
    ∀ m, (workingCopy shuffle cats m).Perm cats := by
  intro m
  induction m with
  | zero => exact List.Perm.refl _
  | succ m ih => exact (hs m _).trans ih

theorem sum_ite_get?_count (l : List ℤ) (v : ℤ) :
    (∑ s in Finset.range l.length, if l.get? s = some v then (1 : ℚ) else 0)
      = l.count v := by
  induction l with
  | nil => simp
  | cons a t ih =>
    rw [List.length_cons, Finset.sum_range_succ']
    simp only [List.get?_cons_succ, List.get?_cons_zero, ih, List.count_cons]
    by_cases hav : a = v <;> simp [hav, beq_iff_eq, add_comm]

theorem sum_eq_count_one (l : List ℤ) (hb : ∀ x ∈ l, x = 0 ∨ x = 1) :
    l.sum = (l.count 1 : ℤ) := by
  induction l with
  | nil => simp
  | cons a t ih =>
    have ht := fun x hx => hb x (List.mem_cons_of_mem _ hx)
    rcases hb a (by simp) with h | h <;>
      simp [List.count_cons, h, ih ht, beq_iff_eq, add_comm]

theorem map_one_sub_sum (l : List ℤ) (hb : ∀ x ∈ l, x = 0 ∨ x = 1) :
    (l.map fun x => 1 - x).sum = (l.count 0 : ℤ) := by
  induction l with
  | nil => simp
  | cons a t ih =>
    have ht := fun x hx => hb x (List.mem_cons_of_mem _ hx)
    rcases hb a (by simp) with h | h <;>
      simp [List.count_cons, h, ih ht, beq_iff_eq, add_comm]

theorem getD_eq_of_get? (l : List ℤ) (s : ℕ) (a : ℤ) (h : l.get? s = some a) :
    l.getD s 0 = a := by
  rw [List.getD_eq_get?, h]
  rfl

theorem get?_binary (l : List ℤ) (hb : ∀ x ∈ l, x = 0 ∨ x = 1) (s : ℕ)
    (hs : s < l.length) : l.get? s = some 0 ∨ l.get? s = some 1 := by
  rcases List.get?_eq_some.mpr ⟨hs, rfl⟩ with h
  rcases hb _ (l.get_mem s hs) with h0 | h1
  · exact Or.inl (by rw [h, h0])
  · exact Or.inr (by rw [h, h1])

theorem sum_ite_range_eq_one (K : ℕ) (v : ℤ) (h0 : 0 ≤ v) (hK : v < (K : ℤ)) :
    (∑ i in Finset.range K, if v = (i : ℤ) then (1 : ℚ) else 0) = 1 := by
  have hv : v.toNat < K := by omega
  have hcond : ∀ i : ℕ, (v = (i : ℤ)) ↔ (i = v.toNat) := by
    intro i
    omega
  calc (∑ i in Finset.range K, if v = (i : ℤ) then (1 : ℚ) else 0)
      = ∑ i in Finset.range K, if i = v.toNat then (1 : ℚ) else 0 := by
        exact Finset.sum_congr rfl fun i _ => by rw [if_congr (hcond i) rfl rfl]
    _ = 1 := by
        rw [Finset.sum_ite_eq' (Finset.range K) v.toNat fun _ => (1 : ℚ)]
        simp [hv]

theorem shuffleLoop_frame (shuffle : ℕ → List ℤ → List ℤ) (ref : ℕ) (t : ℕ)
    (h : Heap) (q : ℕ) (hq : q ≠ ref) :
    ((shuffleLoop shuffle ref t h).1).arrays q = h.arrays q := by
  induction t with
  | zero => rfl
  | succ t ih => simp [shuffleLoop, Heap.write, hq, ih]

theorem shuffleLoop_nextRef (shuffle : ℕ → List ℤ → List ℤ) (ref : ℕ) (t : ℕ)
    (h : Heap) : ((shuffleLoop shuffle ref t h).1).nextRef = h.nextRef := by
  induction t with
  | zero => rfl
  | succ t ih => simp [shuffleLoop, Heap.write, ih]

theorem shuffleLoop_copy (shuffle : ℕ → List ℤ → List ℤ) (ref : ℕ) (t : ℕ)
    (h : Heap) :
    ((shuffleLoop shuffle ref t h).1).arrays ref
      = workingCopy shuffle (h.arrays ref) t := by
  induction t with
  | zero => rfl
  | succ t ih => simp [shuffleLoop, Heap.write, ih, workingCopy]

theorem shuffleLoop_len (shuffle : ℕ → List ℤ → List ℤ) (ref : ℕ) (t : ℕ)
    (h : Heap) : (shuffleLoop shuffle ref t h).2.length = t := by
  induction t with
  | zero => rfl
  | succ t ih => simp [shuffleLoop, ih]

theorem shuffleLoop_snap (shuffle : ℕ → List ℤ → List ℤ) (ref : ℕ) (t : ℕ)
    (h : Heap) (m : ℕ) (hm : m < t) :
    (shuffleLoop shuffle ref t h).2.getD m []
      = workingCopy shuffle (h.arrays ref) m := by
  induction t with
  | zero => omega
  | succ t ih =>
    show ((shuffleLoop shuffle ref t h).2
        ++ [((shuffleLoop shuffle ref t h).1).arrays ref]).getD m []
      = workingCopy shuffle (h.arrays ref) m
    rcases Nat.lt_or_ge m t with hmt | hmt
    · rw [List.getD_append _ _ _ _ (by rw [shuffleLoop_len]; exact hmt)]
      exact ih hmt
    · have hmt' : m = t := by omega
      subst hmt'
      rw [List.getD_append_right _ _ _ _ (by rw [shuffleLoop_len])]
      rw [shuffleLoop_len, Nat.sub_self]
      simpa using shuffleLoop_copy shuffle ref m h

theorem catPerms_colsum (shuffle : ℕ → List ℤ → List ℤ)
    (hs : ∀ m l, (shuffle m l).Perm l) (cats : List ℤ) (P : ℕ) (m i : ℕ)
    (hi : i < numCats cats) :
    (∑ s in Finset.range cats.length,
      (init_categorical_perms shuffle cats P).entry s (numCats cats * m + i))
      = (cats.count (i : ℤ) : ℚ) := by
  have hK : 0 < numCats cats := by omega
  have hdiv : (numCats cats * m + i) / numCats cats = m := by
    rw [Nat.mul_add_div hK, Nat.div_eq_of_lt hi, Nat.add_zero]
  have hmod : (numCats cats * m + i) % numCats cats = i := by
    rw [Nat.mul_add_mod, Nat.mod_eq_of_lt hi]
  have hperm := workingCopy_perm shuffle hs cats m
  calc (∑ s in Finset.range cats.length,
        (init_categorical_perms shuffle cats P).entry s (numCats cats * m + i))
      = ∑ s in Finset.range (workingCopy shuffle cats m).length,
          if (workingCopy shuffle cats m).get? s = some (i : ℤ) then (1 : ℚ)
          else 0 := by
        rw [hperm.length_eq]
        exact Finset.sum_congr rfl fun s _ => by
          simp only [init_categorical_perms, hdiv, hmod]
    _ = ((workingCopy shuffle cats m).count (i : ℤ) : ℚ) :=
        sum_ite_get?_count _ _
    _ = (cats.count (i : ℤ) : ℚ) := by rw [hperm.count_eq]

theorem numCats_rangeDiv (K P : ℕ) (hK : 0 < K) :
    numCats ((List.range ((P + 1) * K)).map fun j => ((j / K : ℕ) : ℤ))
      = P + 1 := by
  have hlen : (((List.range ((P + 1) * K)).map fun j => ((j / K : ℕ) : ℤ)).dedup).length
      = (((List.range ((P + 1) * K)).map fun j => ((j / K : ℕ) : ℤ)).toFinset).card :=
    (List.card_toFinset _).symm
  unfold numCats
  have hset : ((List.range ((P + 1) * K)).map fun j => ((j / K : ℕ) : ℤ)).toFinset
      = (Finset.range ((P + 1) * K)).image fun j => ((j / K : ℕ) : ℤ) := by
    ext x
    simp
  rw [hlen, hset]
  have himg : (Finset.range ((P + 1) * K)).image (fun j => ((j / K : ℕ) : ℤ))
      = (Finset.range (P + 1)).image (fun m => ((m : ℕ) : ℤ)) := by
    ext x
    simp only [Finset.mem_image, Finset.mem_range]
    constructor
    · rintro ⟨j, hj, rfl⟩
      refine ⟨j / K, ?_, rfl⟩
      rw [Nat.div_lt_iff_lt_mul hK]
      omega
    · rintro ⟨m, hm, rfl⟩
      refine ⟨m * K, ?_, by rw [Nat.mul_div_cancel _ hK]⟩
      have : m + 1 ≤ P + 1 := hm
      calc m * K < (m + 1) * K := by
            have hx : m * K + K = (m + 1) * K := by ring
            omega
        _ ≤ (P + 1) * K := Nat.mul_le_mul_right K this
  have hinj : Function.Injective (fun m : ℕ => ((m : ℕ) : ℤ)) :=
    fun a b hab => Int.natCast_inj.mp hab
  rw [himg, Finset.card_image_of_injective _ hinj, Finset.card_range]

theorem workingCopy_id (cats : List ℤ) (m : ℕ) :
    workingCopy (fun _ l => l) cats m = cats := by
  induction m with
  | zero => rfl
  | succ m ih => simpa [workingCopy] using ih

theorem fSumIdx_entry (K P : ℕ) (hK : 0 < K) (m : ℕ) (hm : m ≤ P) (col : ℕ) :
    (fSumIdx K P).entry col m
      = if col < (P + 1) * K ∧ col / K = m then 1 else 0 := by
  have hnum := numCats_rangeDiv K P hK
  have hmlt : m < P + 1 := by omega
  simp only [fSumIdx, init_categorical_perms, hnum, Nat.div_eq_of_lt hmlt,
    Nat.mod_eq_of_lt hmlt, workingCopy_id]
  rcases Nat.lt_or_ge col ((P + 1) * K) with hcol | hcol
  · have hcond : ((List.range ((P + 1) * K)).map fun j => ((j / K : ℕ) : ℤ)).get? col
        = some ((col / K : ℕ) : ℤ) := by
      rw [List.get?_map, List.get?_range hcol]
      rfl
    rw [hcond]
    by_cases hdm : col / K = m
    · rw [if_pos (by rw [hdm]), if_pos ⟨hcol, hdm⟩]
    · rw [if_neg, if_neg (by tauto)]
      intro hc
      exact hdm (Int.natCast_inj.mp (Option.some_inj.mp hc))
  · rw [List.get?_eq_none.mpr (by simpa using hcol)]
    simp [Nat.not_lt.mpr hcol]

theorem sum_fSumIdx (K P : ℕ) (hK : 0 < K) (m : ℕ) (hm : m ≤ P) (f : ℕ → ℚ) :
    (∑ col in Finset.range ((P + 1) * K), f col * (fSumIdx K P).entry col m)
      = ∑ i in Finset.range K, f (K * m + i) := by
  have hset : (Finset.range ((P + 1) * K)).filter (fun col => col / K = m)
      = (Finset.range K).image fun i => K * m + i := by
    ext col
    simp only [Finset.mem_filter, Finset.mem_range, Finset.mem_image]
    constructor
    · rintro ⟨hlt, hdiv⟩
      refine ⟨col % K, Nat.mod_lt _ hK, ?_⟩
      have h1 := Nat.div_add_mod col K
      have h2 : K * (col / K) = K * m := by rw [hdiv]
      omega
    · rintro ⟨i, hiK, rfl⟩
      constructor
      · have h1 : K * m + i < K * (m + 1) := by
          have : K * (m + 1) = K * m + K := by ring
          omega
        have h2 : K * (m + 1) ≤ K * (P + 1) := Nat.mul_le_mul_left K (by omega)
        have h3 : K * (P + 1) = (P + 1) * K := Nat.mul_comm _ _
        omega
      · rw [Nat.mul_add_div hK, Nat.div_eq_of_lt hiK, Nat.add_zero]
  calc (∑ col in Finset.range ((P + 1) * K), f col * (fSumIdx K P).entry col m)
      = ∑ col in Finset.range ((P + 1) * K),
          if col / K = m then f col else 0 := by
        refine Finset.sum_congr rfl fun col hcol => ?_
        rw [fSumIdx_entry K P hK m hm col]
        have hlt : col < (P + 1) * K := Finset.mem_range.mp hcol
        by_cases hdm : col / K = m <;> simp [hdm, hlt]
    _ = ∑ col in (Finset.range ((P + 1) * K)).filter (fun col => col / K = m),
          f col := (Finset.sum_filter _ _).symm
    _ = ∑ i in Finset.range K, f (K * m + i) := by
        rw [hset, Finset.sum_image]
        intro a _ b _ hab
        omega

theorem binary_getD_cast (l : List ℤ) (hb : ∀ x ∈ l, x = 0 ∨ x = 1) (s : ℕ)
    (hs : s < l.length) :
    ((l.getD s 0 : ℤ) : ℚ) = if l.get? s = some 1 then 1 else 0 := by
  rcases get?_binary l hb s hs with h | h <;>
    rw [getD_eq_of_get? _ _ _ h, h] <;> norm_num

theorem binary_one_sub_getD_cast (l : List ℤ) (hb : ∀ x ∈ l, x = 0 ∨ x = 1)
    (s : ℕ) (hs : s < l.length) :
    (1 : ℚ) - ((l.getD s 0 : ℤ) : ℚ) = if l.get? s = some 0 then 1 else 0 := by
  rcases get?_binary l hb s hs with h | h <;>
    rw [getD_eq_of_get? _ _ _ h, h] <;> norm_num

theorem sum_count_eq_length (l : List ℤ) (K : ℕ)
    (hb : ∀ x ∈ l, ∃ j : ℕ, j < K ∧ x = (j : ℤ)) :
    (∑ i in Finset.range K, (l.count (i : ℤ) : ℚ)) = (l.length : ℚ) := by
  induction l with
  | nil => simp
  | cons a t ih =>
    have ht := fun x hx => hb x (List.mem_cons_of_mem _ hx)
    obtain ⟨j, hj, hja⟩ := hb a (by simp)
    have hcount : ∀ i : ℕ, ((a :: t).count (i : ℤ) : ℚ)
        = (t.count (i : ℤ) : ℚ) + if a = (i : ℤ) then 1 else 0 := by
      intro i
      rw [List.count_cons]
      by_cases hai : a = (i : ℤ) <;> simp [hai]
    calc (∑ i in Finset.range K, ((a :: t).count (i : ℤ) : ℚ))
        = (∑ i in Finset.range K, (t.count (i : ℤ) : ℚ))
            + ∑ i in Finset.range K, if a = (i : ℤ) then (1 : ℚ) else 0 := by
          rw [← Finset.sum_add_distrib]
          exact Finset.sum_congr rfl fun i _ => hcount i
      _ = (t.length : ℚ) + 1 := by
          rw [ih ht, sum_ite_range_eq_one K a (by rw [hja]; positivity)
            (by rw [hja]; exact_mod_cast hj)]
      _ = ((a :: t).length : ℚ) := by
          rw [List.length_cons]
          push_cast
          ring

theorem recip_avgs_block0 (shuffle : ℕ → List ℤ → List ℤ) (mat : ℕ → ℕ → ℚ)
    (cats : List ℤ) (P r : ℕ) (hb : ∀ x ∈ cats, x = 0 ∨ x = 1) :
    meanAvgs mat cats.length (init_reciprocal_perms shuffle cats P).entry r 0
      = specGroupMean mat cats r 1
    ∧ meanAvgs mat cats.length (init_reciprocal_perms shuffle cats P).entry r 1
      = specGroupMean mat cats r 0 := by
  constructor
  · have hS : ((cats.sum : ℤ) : ℚ) = (cats.count (1 : ℤ) : ℚ) := by
      rw [sum_eq_count_one cats hb]
      norm_cast
    calc meanAvgs mat cats.length (init_reciprocal_perms shuffle cats P).entry r 0
        = ∑ s in Finset.range cats.length,
            mat r s * (((cats.getD s 0 : ℤ) : ℚ) / ((cats.sum : ℤ) : ℚ)) := by
          rfl
      _ = (∑ s in Finset.range cats.length,
            if cats.get? s = some 1 then mat r s else 0) / ((cats.sum : ℤ) : ℚ) := by
          rw [Finset.sum_div]
          refine Finset.sum_congr rfl fun s hsr => ?_
          have hs := Finset.mem_range.mp hsr
          rw [binary_getD_cast cats hb s hs]
          by_cases hc : cats.get? s = some 1
          · rw [if_pos hc, if_pos hc, mul_one_div]
          · rw [if_neg hc, if_neg hc, zero_div, mul_zero]
      _ = specGroupMean mat cats r 1 := by rw [hS]; rfl
  · have hD : (((cats.map fun x => 1 - x).sum : ℤ) : ℚ)
        = (cats.count (0 : ℤ) : ℚ) := by
      rw [map_one_sub_sum cats hb]
      norm_cast
    calc meanAvgs mat cats.length (init_reciprocal_perms shuffle cats P).entry r 1
        = ∑ s in Finset.range cats.length,
            mat r s * ((1 - ((cats.getD s 0 : ℤ) : ℚ))
              / (((cats.map fun x => 1 - x).sum : ℤ) : ℚ)) := by
          rfl
      _ = (∑ s in Finset.range cats.length,
            if cats.get? s = some 0 then mat r s else 0)
              / (((cats.map fun x => 1 - x).sum : ℤ) : ℚ) := by
          rw [Finset.sum_div]
          refine Finset.sum_congr rfl fun s hsr => ?_
          have hs := Finset.mem_range.mp hsr
          rw [binary_one_sub_getD_cast cats hb s hs]
          by_cases hc : cats.get? s = some 0
          · rw [if_pos hc, if_pos hc, mul_one_div]
          · rw [if_neg hc, if_neg hc, zero_div, mul_zero]
      _ = specGroupMean mat cats r 0 := by rw [hD]; rfl

/-! ### The claims -/

/-- C1.  Mean-difference engine: for every feature matrix and binary label
vector in which both categories are non-empty, the observed statistic
(block 0) of the vectorized engine equals, per feature, the absolute
difference of the two group means computed directly from the true labels;
and on feature matrix `[[1,1,1,2,2,2]]`, labels `[0,0,0,1,1,1]`, `P = 0`,
the observed statistic is `1` and the p-value is `1`. -/
theorem claim_C1 :
    (∀ (shuffle : ℕ → List ℤ → List ℤ) (mat : ℕ → ℕ → ℚ) (cats : List ℤ)
        (P r : ℕ),
      (∀ x ∈ cats, x = 0 ∨ x = 1) →
      0 < cats.count (0 : ℤ) → 0 < cats.count (1 : ℤ) →
      (np_mean_permutation_test shuffle mat cats P).stat r
        = |specGroupMean mat cats r 1 - specGroupMean mat cats r 0|)
    ∧ (np_mean_permutation_test idShuffle mat6 cats6 0).stat 0 = 1
    ∧ (np_mean_permutation_test idShuffle mat6 cats6 0).pvalue 0 = 1 := by
  refine ⟨fun shuffle mat cats P r hb _ _ => ?_, ?_, ?_⟩
  · obtain ⟨h0, h1⟩ := recip_avgs_block0 shuffle mat cats P r hb
    show meanStatF mat cats.length (init_reciprocal_perms shuffle cats P).entry r 0
      = |specGroupMean mat cats r 1 - specGroupMean mat cats r 0|
    unfold meanStatF
    rw [Nat.mul_zero, Nat.zero_add, h0, h1, abs_sub_comm]
  · norm_num [np_mean_permutation_test, np_two_sample_mean_statistic, meanStatF,
      meanAvgs, matProd, init_reciprocal_perms, workingCopy, idShuffle, cats6,
      mat6, matOfLists, numCats, Finset.sum_range_succ]
  · norm_num [np_mean_permutation_test, np_two_sample_mean_statistic,
      tailPValue, init_reciprocal_perms, cats6, numCats]

/-- Witness for C1: the general agreement statement applied to the concrete
scenario. -/
theorem claim_C1_witness :
    (np_mean_permutation_test idShuffle mat6 cats6 0).stat 0
      = |specGroupMean mat6 cats6 0 1 - specGroupMean mat6 cats6 0 0| :=
  claim_C1.1 idShuffle mat6 cats6 0 0 (by decide) (by decide) (by decide)

/-- C2.  P-value bounds: every p-value returned by any of the three engines
lies in the half-open interval `(0, 1]`, for all inputs, thanks to the `+1`
additive smoothing in the shared tail-probability computation. -/
theorem claim_C2 :
    (∀ (mat : ℕ → ℕ → ℚ) (n : ℕ) (perms : ℕ → ℕ → ℚ) (c r : ℕ),
      0 < (np_two_sample_mean_statistic mat n perms c).pvalue r
        ∧ (np_two_sample_mean_statistic mat n perms c).pvalue r ≤ 1)
    ∧ (∀ (sqrtFn : ℚ → ℚ) (mat : ℕ → ℕ → ℚ) (n : ℕ) (perms : ℕ → ℕ → ℚ)
        (c r : ℕ),
      0 < (np_two_sample_t_statistic sqrtFn mat n perms c).pvalue r
        ∧ (np_two_sample_t_statistic sqrtFn mat n perms c).pvalue r ≤ 1)
    ∧ (∀ (mat : ℕ → ℕ → ℚ) (n : ℕ) (cats : List ℤ) (perms : ℕ → ℕ → ℚ)
        (c r : ℕ),
      0 < (np_k_sample_f_statistic mat n cats perms c).pvalue r
        ∧ (np_k_sample_f_statistic mat n cats perms c).pvalue r ≤ 1) :=
  ⟨fun mat n perms c r => ⟨tailPValue_pos _ _, tailPValue_le_one _ _⟩,
   fun sqrtFn mat n perms c r => ⟨tailPValue_pos _ _, tailPValue_le_one _ _⟩,
   fun mat n cats perms c r => ⟨tailPValue_pos _ _, tailPValue_le_one _ _⟩⟩

/-- C3.  Block-0 invariance: block 0 of the permutation matrix produced by
either builder encodes the original, unshuffled label assignment — in the
indicator encoding column `k` of block 0 is the 0/1 membership vector
`(labels == k)`; in the reciprocal encoding (whose documented domain is
binary label vectors) the two block-0 columns are the category-1 and
category-0 memberships normalized by their group sizes. -/
theorem claim_C3 :
    ∀ (shuffle : ℕ → List ℤ → List ℤ) (cats : List ℤ) (P : ℕ),
      (∀ s : ℕ, ∀ k < numCats cats,
        (init_categorical_perms shuffle cats P).entry s k
          = if cats.get? s = some (k : ℤ) then 1 else 0)
      ∧ ((∀ x ∈ cats, x = 0 ∨ x = 1) →
          ∀ s < cats.length,
            (init_reciprocal_perms shuffle cats P).entry s 0
              = (if cats.get? s = some 1 then (1 : ℚ) else 0)
                  / (cats.count (1 : ℤ) : ℚ)
            ∧ (init_reciprocal_perms shuffle cats P).entry s 1
              = (if cats.get? s = some 0 then (1 : ℚ) else 0)
                  / (cats.count (0 : ℤ) : ℚ)) := by
  intro shuffle cats P
  constructor
  · intro s k hk
    show (if (workingCopy shuffle cats (k / numCats cats)).get? s
        = some ((k % numCats cats : ℕ) : ℤ) then (1 : ℚ) else 0)
      = if cats.get? s = some (k : ℤ) then 1 else 0
    rw [Nat.div_eq_of_lt hk, Nat.mod_eq_of_lt hk]
    rfl
  · intro hb s hs
    have hS : ((cats.sum : ℤ) : ℚ) = (cats.count (1 : ℤ) : ℚ) := by
      rw [sum_eq_count_one cats hb]
      norm_cast
    have hD : (((cats.map fun x => 1 - x).sum : ℤ) : ℚ)
        = (cats.count (0 : ℤ) : ℚ) := by
      rw [map_one_sub_sum cats hb]
      norm_cast
    constructor
    · show ((cats.getD s 0 : ℤ) : ℚ) / ((cats.sum : ℤ) : ℚ)
        = (if cats.get? s = some 1 then (1 : ℚ) else 0) / (cats.count (1 : ℤ) : ℚ)
      rw [binary_getD_cast cats hb s hs, hS]
    · show (1 - ((cats.getD s 0 : ℤ) : ℚ))
          / (((cats.map fun x => 1 - x).sum : ℤ) : ℚ)
        = (if cats.get? s = some 0 then (1 : ℚ) else 0) / (cats.count (0 : ℤ) : ℚ)
      rw [binary_one_sub_getD_cast cats hb s hs, hD]

/-- Witness for C3: both encodings at the concrete scenario input. -/
theorem claim_C3_witness :
    (init_categorical_perms idShuffle cats6 0).entry 0 0
        = (if cats6.get? 0 = some 0 then (1 : ℚ) else 0)
    ∧ (init_reciprocal_perms idShuffle cats6 0).entry 3 0
        = (if cats6.get? 3 = some 1 then (1 : ℚ) else 0)
            / (cats6.count (1 : ℤ) : ℚ) := by
  have h1 := (claim_C3 idShuffle cats6 0).1 0 0 (by decide)
  have h2 := ((claim_C3 idShuffle cats6 0).2 (by decide) 3 (by decide)).1
  exact ⟨by rw [h1]; norm_num, h2⟩

/-- C4.  Tail-count exactness: for every engine, whenever every
permuted-block statistic (blocks `1..P`, with `P` derived from the
permutation-matrix width exactly as the engine derives it) is strictly less
than the observed statistic (block 0), the returned p-value equals exactly
`1/(P+1)`; and when `P = 0` the returned p-value equals exactly `1`. -/
theorem claim_C4 :
    (∀ (mat : ℕ → ℕ → ℚ) (n : ℕ) (perms : ℕ → ℕ → ℚ) (c r : ℕ),
      (∀ i < (c - 2) / 2,
        meanStatF mat n perms r (i + 1) < meanStatF mat n perms r 0) →
      (np_two_sample_mean_statistic mat n perms c).pvalue r
        = 1 / ((((c - 2) / 2 : ℕ) : ℚ) + 1))
    ∧ (∀ (sqrtFn : ℚ → ℚ) (mat : ℕ → ℕ → ℚ) (n : ℕ) (perms : ℕ → ℕ → ℚ)
        (c r : ℕ),
      (∀ i < (c - 2) / 2,
        tStatF sqrtFn mat n perms r (i + 1) < tStatF sqrtFn mat n perms r 0) →
      (np_two_sample_t_statistic sqrtFn mat n perms c).pvalue r
        = 1 / ((((c - 2) / 2 : ℕ) : ℚ) + 1))
    ∧ (∀ (mat : ℕ → ℕ → ℚ) (n : ℕ) (cats : List ℤ) (perms : ℕ → ℕ → ℚ)
        (c r : ℕ),
      (∀ i < (c - numCats cats) / numCats cats,
        fStatF mat n (numCats cats) ((c - numCats cats) / numCats cats) perms r
            (i + 1)
          < fStatF mat n (numCats cats) ((c - numCats cats) / numCats cats)
              perms r 0) →
      (np_k_sample_f_statistic mat n cats perms c).pvalue r
        = 1 / ((((c - numCats cats) / numCats cats : ℕ) : ℚ) + 1))
    ∧ (∀ (mat : ℕ → ℕ → ℚ) (n : ℕ) (perms : ℕ → ℕ → ℚ) (r : ℕ),
      (np_two_sample_mean_statistic mat n perms 2).pvalue r = 1)
    ∧ (∀ (sqrtFn : ℚ → ℚ) (mat : ℕ → ℕ → ℚ) (n : ℕ) (perms : ℕ → ℕ → ℚ)
        (r : ℕ),
      (np_two_sample_t_statistic sqrtFn mat n perms 2).pvalue r = 1)
    ∧ (∀ (mat : ℕ → ℕ → ℚ) (n : ℕ) (cats : List ℤ) (perms : ℕ → ℕ → ℚ)
        (r : ℕ),
      (np_k_sample_f_statistic mat n cats perms (numCats cats)).pvalue r
        = 1) := by
  refine ⟨fun mat n perms c r h => tailPValue_of_all_lt _ _ h,
    fun sqrtFn mat n perms c r h => tailPValue_of_all_lt _ _ h,
    fun mat n cats perms c r h => tailPValue_of_all_lt _ _ h,
    fun mat n perms r => ?_, fun sqrtFn mat n perms r => ?_,
    fun mat n cats perms r => ?_⟩
  · exact tailPValue_zero _
  · exact tailPValue_zero _
  · show tailPValue _ ((numCats cats - numCats cats) / numCats cats) = 1
    rw [Nat.sub_self, Nat.zero_div]
    exact tailPValue_zero _

/-- A fixed relabelling used to instantiate C4 at a run with one genuine
permutation block. -/
def meanShuffle1 : ℕ → List ℤ → List ℤ := fun _ _ => [0, 1, 0, 1, 0, 1]

/-- Witness for C4: on `[[1,1,1,2,2,2]]` with true labels `[0,0,0,1,1,1]` and
one permuted block labelled `[0,1,0,1,0,1]`, the permuted statistic `1/3` is
below the observed `1`, and the p-value is exactly `1/(1+1)`. -/
theorem claim_C4_witness :
    (np_two_sample_mean_statistic mat6 6
      (init_reciprocal_perms meanShuffle1 cats6 1).entry 4).pvalue 0
      = 1 / 2 := by
  have h := claim_C4.1 mat6 6 (init_reciprocal_perms meanShuffle1 cats6 1).entry
    4 0 ?_
  · rw [h]
    norm_num
  · intro i hi
    have hi0 : i = 0 := by omega
    subst hi0
    norm_num [meanStatF, meanAvgs, matProd, init_reciprocal_perms, workingCopy,
      meanShuffle1, cats6, mat6, matOfLists, numCats, Finset.sum_range_succ]
    rw [show |(1 : ℚ) / 3| = 1 / 3 from abs_of_nonneg (by norm_num)]
    norm_num

/-- C5 (counterexample to the claim as stated).  On feature matrix
`[[1,1,1,2,2,2]]` and labels `[0,0,0,1,1,1]` the t engine does not fail: the
call runs to completion and returns a p-value (namely `1`, since `P = 0`).
No `DegenerateBlockError` exists anywhere in the code and no numpy operation
in `_np_two_sample_t_statistic` raises on a zero denominator (float division
by zero only emits a warning and produces an infinite or NaN value). -/
theorem claim_C5_counterexample :
    (np_two_sample_t_statistic (fun _ => 0) mat6 6
      (init_categorical_perms idShuffle cats6 0).entry
      (init_categorical_perms idShuffle cats6 0).cols).pvalue 0 = 1 := by
  norm_num [np_two_sample_t_statistic, tailPValue, init_categorical_perms,
    cats6, numCats]

/-- C5 (amended).  For feature matrix `[[1,1,1,2,2,2]]` and labels
`[0,0,0,1,1,1]` (both groups of zero variance), the Welch denominator
argument on block 0 is exactly `0`; the t engine does not raise any error —
whatever value `np.sqrt` returns at `0`, the engine reports the observed
statistic `|avg_1 − avg_0| / sqrt(0) = 1 / sqrt(0)` (an IEEE infinity in
numpy) and the p-value `1` (`P = 0`). -/
theorem claim_C5 :
    ∀ sqrtFn : ℚ → ℚ,
      tDenomArg mat6 6 (init_categorical_perms idShuffle cats6 0).entry 0 0 = 0
      ∧ (np_two_sample_t_statistic sqrtFn mat6 6
          (init_categorical_perms idShuffle cats6 0).entry
          (init_categorical_perms idShuffle cats6 0).cols).stat 0
        = 1 / sqrtFn (tDenomArg mat6 6
            (init_categorical_perms idShuffle cats6 0).entry 0 0)
      ∧ (np_two_sample_t_statistic sqrtFn mat6 6
          (init_categorical_perms idShuffle cats6 0).entry
          (init_categorical_perms idShuffle cats6 0).cols).pvalue 0 = 1 := by
  intro sqrtFn
  refine ⟨?_, ?_, ?_⟩
  · norm_num [tDenomArg, tSampVars, tVars, tAvgs, tAvgs2, matProd, colTot,
      init_categorical_perms, workingCopy, idShuffle, cats6, mat6, matOfLists,
      numCats, Finset.sum_range_succ, -Finset.sum_boole]
  · show tStatF sqrtFn mat6 6 (init_categorical_perms idShuffle cats6 0).entry
        0 0 = _
    unfold tStatF
    congr 1
    norm_num [tAvgs, matProd, colTot, init_categorical_perms, workingCopy,
      idShuffle, cats6, mat6, matOfLists, numCats, Finset.sum_range_succ,
      -Finset.sum_boole]
  · norm_num [np_two_sample_t_statistic, tailPValue, init_categorical_perms,
      cats6, numCats]

/-- C6.  F-engine correctness on the concrete non-degenerate input:
categories `[0,0,0,1,1,1]`, feature row `[1,2,3,10,11,9]`, `P = 0` — the
engine's observed statistic equals the independently computed standard
one-way ANOVA F statistic (exactly, in rational arithmetic), and both
equal `96`. -/
theorem claim_C6 :
    (np_k_sample_f_statistic matF 6 cats6
      (init_categorical_perms idShuffle cats6 0).entry
      (init_categorical_perms idShuffle cats6 0).cols).stat 0
      = specAnovaF xsF cats6
    ∧ specAnovaF xsF cats6 = 96 := by
  have h1 : (np_k_sample_f_statistic matF 6 cats6
      (init_categorical_perms idShuffle cats6 0).entry
      (init_categorical_perms idShuffle cats6 0).cols).stat 0 = 96 := by
    norm_num [np_k_sample_f_statistic, fStatF, fSstot, fS, fSS, fSserr, fDferr,
      fSs, fSumIdx, matProd, colTot, init_categorical_perms, workingCopy,
      idShuffle, cats6, matF, xsF, matOfLists, numCats, Finset.sum_range_succ,
      -Finset.sum_boole]
  have h2 : specAnovaF xsF cats6 = 96 := by
    norm_num [specAnovaF, specSserr, specGroup, numCats, cats6, xsF,
      Finset.sum_range_succ, List.filterMap, List.range_succ]
  exact ⟨h1.trans h2.symm, h2⟩

/-- C7 (counterexample to the claim as stated).  No `InvalidInputError`
exists anywhere in the code, and the builders perform no input validation:
on the empty label vector the indicator builder does not fail — it returns
a `0 × 0` matrix — and on a label vector whose entries `[5, 7]` all lie
outside `[0, K) = [0, 2)` it returns a `2 × 2` matrix whose indicator
entries are all zero.  The reciprocal builder on the empty vector also does
not raise `InvalidInputError`: its first column assignment is out of bounds
for the `0`-column allocation, so the call dies with an unrelated numpy
`IndexError`. -/
theorem claim_C7_counterexample :
    (init_categorical_perms idShuffle [] 0).rows = 0
    ∧ (init_categorical_perms idShuffle [] 0).cols = 0
    ∧ (init_categorical_perms idShuffle [5, 7] 0).rows = 2
    ∧ (init_categorical_perms idShuffle [5, 7] 0).cols = 2
    ∧ (init_categorical_perms idShuffle [5, 7] 0).entry 0 0 = 0
    ∧ (init_categorical_perms idShuffle [5, 7] 0).entry 0 1 = 0
    ∧ (init_categorical_perms idShuffle [5, 7] 0).entry 1 0 = 0
    ∧ (init_categorical_perms idShuffle [5, 7] 0).entry 1 1 = 0
    ∧ ¬ recipWritesInBounds [] 0 := by
  refine ⟨rfl, rfl, rfl, rfl, ?_, ?_, ?_, ?_, by decide⟩ <;>
    norm_num [init_categorical_perms, workingCopy, idShuffle, numCats]

/-- C7 (amended).  The permutation-matrix builders validate nothing and
never raise `InvalidInputError`, which does not exist in the code.  The
indicator builder never fails at all: for every label vector (empty vectors
and entries outside `[0, K)` included) and every permutation count `P ≥ 0`
it returns a matrix with `len(labels)` rows and `K·(P+1)` columns whose
entries are all `0` or `1` (entries outside `[0, K)` merely produce all-zero
indicator columns).  The reciprocal builder validates nothing either: on
label vectors with `K ≤ 1` distinct values (the empty vector included) its
column writes go out of bounds for every `P ≥ 0` — the call dies with a
numpy `IndexError`, still not an `InvalidInputError` — while on its
documented binary domain (`K = 2`) every write is in bounds.  Negative
permutation counts are not representable in this embedding; in the source
they are not validated either (`P = -1` yields an empty matrix, `P ≤ -2` a
`ValueError` from numpy array allocation, in no case an
`InvalidInputError`). -/
theorem claim_C7 :
    ∀ (shuffle : ℕ → List ℤ → List ℤ) (cats : List ℤ) (P : ℕ),
      (init_categorical_perms shuffle cats P).rows = cats.length
      ∧ (init_categorical_perms shuffle cats P).cols
          = numCats cats * (P + 1)
      ∧ (numCats cats ≤ 1 → ¬ recipWritesInBounds cats P)
      ∧ (numCats cats = 2 → recipWritesInBounds cats P)
      ∧ ∀ s col, (init_categorical_perms shuffle cats P).entry s col = 0
          ∨ (init_categorical_perms shuffle cats P).entry s col = 1 := by
  intro shuffle cats P
  refine ⟨rfl, rfl, ?_, ?_, fun s col => ?_⟩
  · intro hK
    unfold recipWritesInBounds
    rcases Nat.le_one_iff_eq_zero_or_eq_one.mp hK with h0 | h1
    · rw [h0]
      omega
    · rw [h1]
      omega
  · intro hK
    unfold recipWritesInBounds
    rw [hK]
    omega
  show (if (workingCopy shuffle cats (col / numCats cats)).get? s
      = some ((col % numCats cats : ℕ) : ℤ) then (1 : ℚ) else 0) = 0
    ∨ (if (workingCopy shuffle cats (col / numCats cats)).get? s
      = some ((col % numCats cats : ℕ) : ℤ) then (1 : ℚ) else 0) = 1
  by_cases hc : (workingCopy shuffle cats (col / numCats cats)).get? s
      = some ((col % numCats cats : ℕ) : ℤ)
  · exact Or.inr (if_pos hc)
  · exact Or.inl (if_neg hc)

/-- C8 (counterexample to the claim as stated).  In the reciprocal-weighted
encoding the elementwise (per-sample) sum of a block's `K` columns is not
`1`: for labels `[0,0,0,1,1,1]` at block 0, sample 0, the two columns sum to
`0/3 + 1/3 = 1/3`. -/
theorem claim_C8_counterexample :
    ¬ ((∑ k in Finset.range (numCats cats6),
        (init_reciprocal_perms idShuffle cats6 0).entry 0
          (numCats cats6 * 0 + k)) = 1) := by
  norm_num [init_reciprocal_perms, workingCopy, idShuffle, cats6, numCats,
    Finset.sum_range_succ]

/-- C8 (amended).  Per-block column-sum invariants: in the indicator
encoding, for every label vector with entries in `[0, K)` and every block,
the elementwise (per-sample) sum of the block's `K` columns is `1`; in the
reciprocal-weighted encoding (binary labels, both categories non-empty) it
is each of the block's two columns that sums to `1` — across samples, one
reciprocal column totalling `1` per category — not the per-sample sum. -/
theorem claim_C8 :
    ∀ (shuffle : ℕ → List ℤ → List ℤ),
      (∀ m l, (shuffle m l).Perm l) →
      ∀ (cats : List ℤ) (P m : ℕ),
        ((∀ x ∈ cats, ∃ j : ℕ, j < numCats cats ∧ x = (j : ℤ)) →
          ∀ s < cats.length,
            (∑ i in Finset.range (numCats cats),
              (init_categorical_perms shuffle cats P).entry s
                (numCats cats * m + i)) = 1)
        ∧ ((∀ x ∈ cats, x = 0 ∨ x = 1) →
            0 < cats.count (0 : ℤ) → 0 < cats.count (1 : ℤ) →
            ∀ j < 2,
              (∑ s in Finset.range cats.length,
                (init_reciprocal_perms shuffle cats P).entry s (2 * m + j))
                = 1) := by
  intro shuffle hs cats P m
  constructor
  · intro hrange s hslen
    have hperm := workingCopy_perm shuffle hs cats m
    have hwlen : (workingCopy shuffle cats m).length = cats.length :=
      hperm.length_eq
    have hv : (workingCopy shuffle cats m).get? s
        = some ((workingCopy shuffle cats m).get ⟨s, by omega⟩) :=
      List.get?_eq_get _
    set v := (workingCopy shuffle cats m).get ⟨s, by omega⟩ with hvdef
    have hvmem : v ∈ cats :=
      hperm.mem_iff.mp (List.get_mem _ _ _)
    obtain ⟨j, hj, hvj⟩ := hrange v hvmem
    have hK : 0 < numCats cats := by omega
    calc (∑ i in Finset.range (numCats cats),
          (init_categorical_perms shuffle cats P).entry s
            (numCats cats * m + i))
        = ∑ i in Finset.range (numCats cats),
            if v = (i : ℤ) then (1 : ℚ) else 0 := by
          refine Finset.sum_congr rfl fun i hir => ?_
          have hi := Finset.mem_range.mp hir
          have hdiv : (numCats cats * m + i) / numCats cats = m := by
            rw [Nat.mul_add_div hK, Nat.div_eq_of_lt hi, Nat.add_zero]
          have hmod : (numCats cats * m + i) % numCats cats = i := by
            rw [Nat.mul_add_mod, Nat.mod_eq_of_lt hi]
          show (if (workingCopy shuffle cats
              ((numCats cats * m + i) / numCats cats)).get? s
              = some (((numCats cats * m + i) % numCats cats : ℕ) : ℤ)
              then (1 : ℚ) else 0) = _
          rw [hdiv, hmod, hv]
          by_cases hc : v = (i : ℤ)
          · rw [if_pos (by rw [hc]), if_pos hc]
          · rw [if_neg (fun hcc => hc (Option.some_inj.mp hcc)), if_neg hc]
      _ = 1 := sum_ite_range_eq_one _ v (by omega)
            (by rw [hvj]; exact_mod_cast hj)
  · intro hb h0 h1 j hj
    have hperm := workingCopy_perm shuffle hs cats m
    have hwlen : (workingCopy shuffle cats m).length = cats.length :=
      hperm.length_eq
    have hwb : ∀ x ∈ workingCopy shuffle cats m, x = 0 ∨ x = 1 :=
      fun x hx => hb x (hperm.mem_iff.mp hx)
    have hwc0 : (workingCopy shuffle cats m).count (0 : ℤ)
        = cats.count (0 : ℤ) := hperm.count_eq _
    have hwc1 : (workingCopy shuffle cats m).count (1 : ℤ)
        = cats.count (1 : ℤ) := hperm.count_eq _
    interval_cases j
    · have hdiv : (2 * m + 0) / 2 = m := by omega
      have hmod : (2 * m + 0) % 2 = 0 := by omega
      have hS : (((workingCopy shuffle cats m).sum : ℤ) : ℚ)
          = ((workingCopy shuffle cats m).count (1 : ℤ) : ℚ) := by
        rw [sum_eq_count_one _ hwb]
        norm_cast
      calc (∑ s in Finset.range cats.length,
            (init_reciprocal_perms shuffle cats P).entry s (2 * m + 0))
          = ∑ s in Finset.range (workingCopy shuffle cats m).length,
              (if (workingCopy shuffle cats m).get? s = some 1 then (1 : ℚ)
                else 0) / (((workingCopy shuffle cats m).sum : ℤ) : ℚ) := by
            rw [hwlen]
            refine Finset.sum_congr rfl fun s hsr => ?_
            have hslen := Finset.mem_range.mp hsr
            show (if (2 * m + 0) % 2 = 0 then
                ((workingCopy shuffle cats ((2 * m + 0) / 2)).getD s 0 : ℚ)
                  / (((workingCopy shuffle cats ((2 * m + 0) / 2)).sum : ℤ) : ℚ)
              else _) = _
            rw [if_pos hmod, hdiv,
              binary_getD_cast _ hwb s (by omega)]
        _ = 1 := by
            rw [← Finset.sum_div, sum_ite_get?_count, hS, div_self]
            rw [hwc1]
            exact_mod_cast h1.ne.symm
    · have hdiv : (2 * m + 1) / 2 = m := by omega
      have hmod : ¬ ((2 * m + 1) % 2 = 0) := by omega
      have hD : ((((workingCopy shuffle cats m).map fun x => 1 - x).sum : ℤ) : ℚ)
          = ((workingCopy shuffle cats m).count (0 : ℤ) : ℚ) := by
        rw [map_one_sub_sum _ hwb]
        norm_cast
      calc (∑ s in Finset.range cats.length,
            (init_reciprocal_perms shuffle cats P).entry s (2 * m + 1))
          = ∑ s in Finset.range (workingCopy shuffle cats m).length,
              (if (workingCopy shuffle cats m).get? s = some 0 then (1 : ℚ)
                else 0)
                / ((((workingCopy shuffle cats m).map fun x => 1 - x).sum : ℤ) : ℚ) := by
            rw [hwlen]
            refine Finset.sum_congr rfl fun s hsr => ?_
            have hslen := Finset.mem_range.mp hsr
            show (if (2 * m + 1) % 2 = 0 then _
              else (1 - ((workingCopy shuffle cats ((2 * m + 1) / 2)).getD s 0 : ℚ))
                / ((((workingCopy shuffle cats ((2 * m + 1) / 2)).map
                    fun x => 1 - x).sum : ℤ) : ℚ)) = _
            rw [if_neg hmod, hdiv,
              binary_one_sub_getD_cast _ hwb s (by omega)]
        _ = 1 := by
            rw [← Finset.sum_div, sum_ite_get?_count, hD, div_self]
            rw [hwc0]
            exact_mod_cast h0.ne.symm

/-- Witness for C8: both amended invariants at the concrete scenario. -/
theorem claim_C8_witness :
    (∑ i in Finset.range (numCats cats6),
      (init_categorical_perms idShuffle cats6 0).entry 0
        (numCats cats6 * 0 + i)) = 1
    ∧ (∑ s in Finset.range cats6.length,
        (init_reciprocal_perms idShuffle cats6 0).entry s (2 * 0 + 0)) = 1 := by
  have hid : ∀ m l, (idShuffle m l).Perm l := fun _ l => List.Perm.refl l
  have hrange : ∀ x ∈ cats6, ∃ j : ℕ, j < numCats cats6 ∧ x = (j : ℤ) := by
    intro x hx
    fin_cases hx
    · exact ⟨0, by decide, rfl⟩
    · exact ⟨0, by decide, rfl⟩
    · exact ⟨0, by decide, rfl⟩
    · exact ⟨1, by decide, rfl⟩
    · exact ⟨1, by decide, rfl⟩
    · exact ⟨1, by decide, rfl⟩
  exact ⟨(claim_C8 idShuffle hid cats6 0 0).1 hrange 0 (by decide),
    (claim_C8 idShuffle hid cats6 0 0).2 (by decide) (by decide) (by decide)
      0 (by decide)⟩

/-- C9.  No mutation of caller inputs: in the heap model, a builder call
deep-copies the caller's label vector and shuffles only the copy, so every
object existing before the call (the caller's label vector in particular) is
unchanged on return; the full mean-test pipeline also leaves the feature
matrix store untouched (every numpy operation of the engines allocates a new
array), and the matrix returned by the heap-level builder coincides with the
functional builder applied to the caller's label vector. -/
theorem claim_C9 :
    ∀ (shuffle : ℕ → List ℤ → List ℤ) (h : Heap) (catsRef P : ℕ),
      catsRef < h.nextRef →
      (∀ q < h.nextRef,
        ((init_categorical_perms_prog shuffle h catsRef P).1).arrays q
          = h.arrays q)
      ∧ (∀ q < h.nextRef,
          ((init_reciprocal_perms_prog shuffle h catsRef P).1).arrays q
            = h.arrays q)
      ∧ (∀ (mats : ℕ → ℕ → ℕ → ℚ) (matRef : ℕ), ∀ q < h.nextRef,
          ((np_mean_permutation_test_prog shuffle h mats matRef catsRef
              P).1.1).arrays q = h.arrays q)
      ∧ (∀ (mats : ℕ → ℕ → ℕ → ℚ) (matRef : ℕ),
          (np_mean_permutation_test_prog shuffle h mats matRef catsRef P).1.2
            = mats)
      ∧ (∀ s col, col < numCats (h.arrays catsRef) * (P + 1) →
          ((init_categorical_perms_prog shuffle h catsRef P).2).entry s col
            = (init_categorical_perms shuffle (h.arrays catsRef) P).entry
                s col) := by
  intro shuffle h catsRef P hlt
  have hframe : ∀ q < h.nextRef,
      ((shuffleLoop shuffle (h.alloc (h.arrays catsRef)).1 (P + 1)
        (h.alloc (h.arrays catsRef)).2).1).arrays q = h.arrays q := by
    intro q hq
    have hqne : q ≠ h.nextRef := Nat.ne_of_lt hq
    show ((shuffleLoop shuffle h.nextRef (P + 1)
      (h.alloc (h.arrays catsRef)).2).1).arrays q = h.arrays q
    rw [shuffleLoop_frame shuffle h.nextRef (P + 1) _ q hqne]
    exact if_neg hqne
  refine ⟨hframe, hframe, fun mats matRef => hframe, fun mats matRef => rfl,
    ?_⟩
  intro s col hcol
  have hK : 0 < numCats (h.arrays catsRef) := by
    rcases Nat.eq_zero_or_pos (numCats (h.arrays catsRef)) with h0 | h0
    · rw [h0] at hcol
      omega
    · exact h0
  have hdivlt : col / numCats (h.arrays catsRef) < P + 1 := by
    rw [Nat.div_lt_iff_lt_mul hK, Nat.mul_comm]
    omega
  show (if ((shuffleLoop shuffle (h.alloc (h.arrays catsRef)).1 (P + 1)
        (h.alloc (h.arrays catsRef)).2).2.getD
          (col / numCats (h.arrays catsRef)) []).get? s
      = some ((col % numCats (h.arrays catsRef) : ℕ) : ℤ) then (1 : ℚ) else 0)
    = _
  rw [shuffleLoop_snap shuffle _ (P + 1) _ _ hdivlt]
  have harr : ((h.alloc (h.arrays catsRef)).2).arrays
      (h.alloc (h.arrays catsRef)).1 = h.arrays catsRef := if_pos rfl
  rw [harr]
  rfl

/-- A one-object heap holding the scenario labels at reference 0. -/
def demoHeap : Heap := ⟨fun r => if r = 0 then cats6 else [], 1⟩

/-- Witness for C9: after running either heap-level builder on the demo heap,
the caller's label vector at reference 0 still holds `[0,0,0,1,1,1]`. -/
theorem claim_C9_witness :
    ((init_categorical_perms_prog idShuffle demoHeap 0 0).1).arrays 0 = cats6
    ∧ ((init_reciprocal_perms_prog idShuffle demoHeap 0 0).1).arrays 0
        = cats6 := by
  have h := claim_C9 idShuffle demoHeap 0 0 (by decide)
  exact ⟨((h.1 0 (by decide)).trans rfl), ((h.2.1 0 (by decide)).trans rfl)⟩

/-- C10.  Group sizes are identical across blocks: every indicator column of
block `m` for category `i` sums (over samples) to the number of samples
whose original label is `i` — shuffling permutes labels without changing
their multiset — and consequently the F engine's per-block error degrees of
freedom `dferr = np.dot(tot, _sum_idx) - num_cats` equal `n_total − K` for
every block. -/
theorem claim_C10 :
    ∀ (shuffle : ℕ → List ℤ → List ℤ),
      (∀ m l, (shuffle m l).Perm l) →
      ∀ (cats : List ℤ) (P : ℕ),
        (∀ m i, i < numCats cats →
          (∑ s in Finset.range (init_categorical_perms shuffle cats P).rows,
            (init_categorical_perms shuffle cats P).entry s
              (numCats cats * m + i))
            = (cats.count (i : ℤ) : ℚ))
        ∧ ((∀ x ∈ cats, ∃ j : ℕ, j < numCats cats ∧ x = (j : ℤ)) →
            ∀ m ≤ P,
              fDferr cats.length (numCats cats) P
                  (init_categorical_perms shuffle cats P).entry m
                = (cats.length : ℚ) - (numCats cats : ℚ)) := by
  intro shuffle hs cats P
  constructor
  · intro m i hi
    exact catPerms_colsum shuffle hs cats P m i hi
  · intro hrange m hm
    rcases List.eq_nil_or_concat cats with hnil | hne
    · subst hnil
      show (∑ col in Finset.range ((P + 1) * numCats ([] : List ℤ)),
          colTot (List.length ([] : List ℤ))
            (init_categorical_perms shuffle [] P).entry col
            * (fSumIdx (numCats ([] : List ℤ)) P).entry col m)
          - ((numCats ([] : List ℤ) : ℕ) : ℚ) = _
      norm_num [numCats]
    · have hcats : cats ≠ [] := by
        rcases hne with ⟨l, a, rfl⟩
        simp
      have hK : 0 < numCats cats := by
        rcases Nat.eq_zero_or_pos (numCats cats) with h0 | h0
        · exact absurd ((List.dedup_eq_nil cats).mp
            (List.length_eq_zero.mp h0)) hcats
        · exact h0
      unfold fDferr
      rw [sum_fSumIdx (numCats cats) P hK m hm]
      have hcol : ∀ i ∈ Finset.range (numCats cats),
          colTot cats.length (init_categorical_perms shuffle cats P).entry
            (numCats cats * m + i) = (cats.count (i : ℤ) : ℚ) := by
        intro i hir
        exact catPerms_colsum shuffle hs cats P m i (Finset.mem_range.mp hir)
      rw [Finset.sum_congr rfl hcol, sum_count_eq_length cats _ hrange]

/-- Witness for C10: on the scenario labels, block-0 column of category 1
sums to 3 and the error degrees of freedom are `6 − 2 = 4`. -/
theorem claim_C10_witness :
    (∑ s in Finset.range (init_categorical_perms idShuffle cats6 0).rows,
      (init_categorical_perms idShuffle cats6 0).entry s
        (numCats cats6 * 0 + 1)) = 3
    ∧ fDferr cats6.length (numCats cats6) 0
        (init_categorical_perms idShuffle cats6 0).entry 0 = 4 := by
  have hid : ∀ m l, (idShuffle m l).Perm l := fun _ l => List.Perm.refl l
  have h := claim_C10 idShuffle hid cats6 0
  have hrange : ∀ x ∈ cats6, ∃ j : ℕ, j < numCats cats6 ∧ x = (j : ℤ) := by
    intro x hx
    fin_cases hx
    · exact ⟨0, by decide, rfl⟩
    · exact ⟨0, by decide, rfl⟩
    · exact ⟨0, by decide, rfl⟩
    · exact ⟨1, by decide, rfl⟩
    · exact ⟨1, by decide, rfl⟩
    · exact ⟨1, by decide, rfl⟩
  constructor
  · rw [h.1 0 1 (by decide)]
    norm_num [show cats6.count (1 : ℤ) = 3 from rfl]
  · rw [h.2 hrange 0 (le_refl 0)]
    norm_num [show cats6.length = 6 from rfl, show numCats cats6 = 2 from rfl]

end AncomP

